import Mathlib

/-!
Verification development for the streaming web-search agent
(`lambda-code/agent.py`, `lambda-code/app.py`,
`application/api/lambda_handler.py`).

The development shallowly embeds:
* the agent loop `CustomAgentExecutor.invoke` (agent.py lines 239-274),
  with tool dispatch `execute_tool` + `asyncio.gather` and the scratchpad
  bookkeeping,
* the incremental-delta collector inside `invoke.stream`
  (agent.py lines 202-237),
* the `QueueCallbackHandler` (agent.py lines 115-156), and
* the two stream consumers (`stream_generator` in app.py and
  `stream_response` in application/api/lambda_handler.py).

Python exceptions are modelled with `Except String`; Python truthiness of
optional strings (`None` and `""` are falsy) is modelled by `truthyO`.
Tool bodies and the JSON argument parser are external to the embedded code
and appear as explicit function parameters (`impl`, `parse`).
-/

set_option autoImplicit false

namespace WebSearchAgent

/-- Structured tool-call arguments, as the dict stored in a langchain
`ToolCall`.  The agent loop only ever reads the `"answer"` key
(agent.py line 260: `final_answer_call["args"]["answer"]`); `answer = none`
models a dict without that key.  Remaining keys are kept opaque in `rest`. -/
structure ArgsD where
  answer : Option String := none
  rest : List (String × String) := []
  deriving DecidableEq, Repr, Inhabited

/-- A complete langchain tool call: the dict `\x7bid, name, args\x7d`.
`id` may be `None` in langchain, hence `Option String`. -/
structure CallRec where
  id : Option String := none
  name : String
  args : ArgsD := {}
  deriving DecidableEq, Repr, Inhabited

/-- An `AIMessage` as built by the list comprehension at agent.py
lines 231-237: it carries the collected `tool_calls` plus the
`tool_call_id` field (set there to `tool_calls[0]["id"]`).
Text content is not read by the loop and is omitted. -/
structure AIMsg where
  toolCalls : List CallRec
  toolCallId : Option String := none
  deriving DecidableEq, Repr, Inhabited

/-- A `ToolMessage` produced by `execute_tool` (agent.py lines 162-165):
stringified tool output plus the id of the call it answers. -/
structure ToolMsg where
  content : String
  toolCallId : Option String
  deriving DecidableEq, Repr, Inhabited

/-- One entry of the `agent_scratchpad` list
(`list[AIMessage | ToolMessage]`, agent.py line 187). -/
inductive SMsg where
  | call (m : AIMsg)
  | result (t : ToolMsg)
  deriving DecidableEq, Repr

/-- The value returned by `invoke` (agent.py line 274):
either `final_answer_call` (the raw tool-call dict of the terminating
call) or the fallback dict `\x7b"answer": "No answer found",
"tools_used": []\x7d`. -/
inductive RetVal where
  | callDict (tc : CallRec)
  | noAnswerDict
  deriving DecidableEq, Repr

/-- The `"answer"` a caller can read off the returned value: the
fallback dict has an `"answer"` key holding `"No answer found"`; the
tool-call dict holds the answer at `["args"]["answer"]`. -/
def retAnswer : RetVal → Option String
  | .callDict tc => tc.args.answer
  | .noAnswerDict => some "No answer found"

deriving instance DecidableEq for Except

/-- Result of one whole `invoke` run: the returned value (or the
propagated exception), the final scratchpad, and the number of
model-call/tool-dispatch cycles performed. -/
structure LoopOut where
  res : Except String RetVal
  scratch : List SMsg
  turnsRun : Nat
  deriving DecidableEq, Repr

/-- `execute_tool` (agent.py lines 158-165).  It reads only
`tool_call.tool_calls[0]`: name and args of the head call are handed to
the tool body, and the result is correlated to the head call's id.
`impl` is the composite of the `name2tool` registry lookup and the tool
coroutine: a missing name (Python `KeyError`) or a raising tool body is
an `Except.error`.  An empty `tool_calls` list is Python's `IndexError`
(unreachable from the collector, which filters such messages out). -/
def execute_tool (impl : String → ArgsD → Except String String) (m : AIMsg) :
    Except String ToolMsg :=
  match m.toolCalls.head? with
  | none => .error "IndexError"
  | some tc =>
    match impl tc.name tc.args with
    | .error e => .error e
    | .ok out => .ok ⟨out, tc.id⟩

/-- First task to raise, in completion order `σ`, among the dispatched
batch `ts` (indices into `ts`). -/
def firstErr {α : Type} (σ : List Nat) (ts : List (Except String α)) : Option String :=
  σ.findSome? fun i =>
    match ts.get? i with
    | some (.error e) => some e
    | _ => none

/-- `asyncio.gather(*tasks)` with `return_exceptions=False`
(agent.py lines 243-245): if no task raises, the results come back in
input order regardless of the completion order `σ`; if a task raises,
the first exception (in completion order) propagates. -/
def gatherSched {α : Type} (σ : List Nat) (ts : List (Except String α)) :
    Except String (List α) :=
  match firstErr σ ts with
  | some e => .error e
  | none => ts.mapM id

/-- Python-dict lookup in the assoc list built by
`id2tool_obs = \x7btool_call.tool_call_id: tool_obs for ...\x7d`
(agent.py line 247): later entries overwrite earlier ones. -/
def pyDictGet (d : List (AIMsg × ToolMsg)) (k : Option String) : Option ToolMsg :=
  match d with
  | [] => none
  | p :: rest =>
    match pyDictGet rest k with
    | some t => some t
    | none => if p.1.toolCallId == k then some p.2 else none

/-- The `for tool_call in tool_calls: agent_scratchpad.extend([...])`
loop (agent.py lines 248-252), reading each message's observation back
out of the id-keyed dict.  A missing key is Python's `KeyError`
(impossible when ids are unique and the zip is full-length). -/
def scratchEntries (d : List (AIMsg × ToolMsg)) : List AIMsg → Except String (List SMsg)
  | [] => .ok []
  | m :: ms =>
    match pyDictGet d m.toolCallId with
    | none => .error "KeyError"
    | some t => (scratchEntries d ms).map fun rest => SMsg.call m :: SMsg.result t :: rest

/-- Scratchpad extension for one turn: the dict is built from
`zip(tool_calls, tool_obs)` (truncating like Python's `zip`), then the
pairs are appended in call order. -/
def turnScratch (msgs : List AIMsg) (obs : List ToolMsg) : Except String (List SMsg) :=
  scratchEntries (msgs.zip obs) msgs

/-- The final-answer scan (agent.py lines 256-262): the head tool call
of the first message whose head call is named `final_answer`.  Only
`tool_calls[0]["name"]` of each message is inspected. -/
def findFinal (msgs : List AIMsg) : Option CallRec :=
  msgs.findSome? fun m =>
    m.toolCalls.head?.bind fun tc =>
      if tc.name = "final_answer" then some tc else none

/-- One iteration body of the agent loop: dispatch the turn's collected
messages concurrently, fold the `(call, result)` pairs, and run the
final-answer scan. -/
def runTurn (impl : String → ArgsD → Except String String)
    (msgs : List AIMsg) (σ : List Nat) :
    Except String (List SMsg × Option CallRec) :=
  match gatherSched σ (msgs.map (execute_tool impl)) with
  | .error e => .error e
  | .ok obs =>
    match turnScratch msgs obs with
    | .error e => .error e
    | .ok entries => .ok (entries, findFinal msgs)

/-- The `while count < self.max_iterations` loop of `invoke`
(agent.py lines 239-274), with `fuel = max_iterations - count` made
structural.  `turns` supplies, per iteration, the tool-call messages the
`stream` helper would collect; `scheds` supplies each dispatch batch's
completion order.  On a final-answer hit the loop breaks; an empty or
missing `"answer"` argument reproduces the `KeyError` of line 260, and
the Python truthiness test `if final_answer` at line 274 sends an empty
answer string to the fallback dict. -/
def loopGo (impl : String → ArgsD → Except String String)
    (turns : List (List AIMsg)) (scheds : List (List Nat)) :
    Nat → Nat → List SMsg → LoopOut
  | 0, count, scratch => ⟨.ok .noAnswerDict, scratch, count⟩
  | fuel + 1, count, scratch =>
    match runTurn impl (turns.getD count []) (scheds.getD count []) with
    | .error e => ⟨.error e, scratch, count + 1⟩
    | .ok (entries, ffa) =>
      match ffa with
      | some tc =>
        match tc.args.answer with
        | none => ⟨.error "KeyError", scratch ++ entries, count + 1⟩
        | some a =>
          ⟨.ok (if a = "" then .noAnswerDict else .callDict tc),
            scratch ++ entries, count + 1⟩
      | none => loopGo impl turns scheds fuel (count + 1) (scratch ++ entries)

/-- `CustomAgentExecutor.invoke`, abstracted over the per-turn collected
messages (the output of the `stream` helper) and the tool bodies. -/
def invoke (impl : String → ArgsD → Except String String)
    (turns : List (List AIMsg)) (scheds : List (List Nat)) (maxIter : Nat) : LoopOut :=
  loopGo impl turns scheds maxIter 0 []

/-- The canonical scratchpad contribution of one successfully dispatched
turn: adjacent `(call, result)` pairs in issue order. -/
def turnPairs (impl : String → ArgsD → Except String String)
    (msgs : List AIMsg) : List SMsg :=
  msgs.flatMap fun m =>
    match execute_tool impl m with
    | .ok t => [SMsg.call m, SMsg.result t]
    | .error _ => []

/-! ## Incremental deltas, the stream collector and the callback handler -/

/-- Python truthiness of an optional string: `None` and `""` are falsy. -/
def truthyO (o : Option String) : Bool :=
  !(o.getD "").isEmpty

/-- One entry of a streamed `tool_call_chunks` list: an id/name fragment
or an argument-text continuation.  Every field may be absent (`None`). -/
structure Frag where
  id : Option String := none
  name : Option String := none
  args : Option String := none
  deriving DecidableEq, Repr, Inhabited

/-- One entry of the old-format `additional_kwargs["tool_calls"]` list:
`\x7b"id": ..., "function": \x7b"name": ..., "arguments": ...\x7d\x7d`.
Note that `name`/`arguments` live under `"function"`, not at top level. -/
structure OldCall where
  id : Option String := none
  fname : Option String := none
  fargs : Option String := none
  deriving DecidableEq, Repr, Inhabited

/-- One incremental delta (`AIMessageChunk`) from the model stream, as
duck-typed by the source: it may carry streaming `tool_call_chunks`,
complete `tool_calls`, and/or old-format `additional_kwargs` tool calls. -/
structure Delta where
  chunks : List Frag := []
  calls : List CallRec := []
  old : List OldCall := []
  deriving DecidableEq, Repr, Inhabited

/-- The top-level `.get("id")` / `.get("name")` view of a complete
tool-call dict, as read by the collector at agent.py lines 221-222. -/
def CallRec.asFrag (c : CallRec) : Frag :=
  { id := c.id, name := some c.name, args := none }

/-- The top-level `.get("id")` / `.get("name")` view of an old-format
entry: that dict has no top-level `"name"` key, so `name` is `None`;
its argument text sits in `function.arguments`. -/
def OldCall.asFrag (o : OldCall) : Frag :=
  { id := o.id, name := none, args := o.fargs }

/-- `chunk_or_call` selection (agent.py lines 206-218): streaming chunks
first, then complete calls; when both are absent the old-format list is
substituted for the chunks (lines 212-214).  `none` means the delta
carries no tool-call payload and is skipped (the `else: pass` branch). -/
def chunkOrCall (d : Delta) : Option Frag :=
  match d.chunks.head? with
  | some f => some f
  | none =>
    match d.calls.head? with
    | some c => some c.asFrag
    | none => d.old.head?.map OldCall.asFrag

/-- A pending tool call in the collector's `outputs` list: the delta
that opened it plus the argument text accumulated from continuation
deltas via `outputs[-1] += token`. -/
structure Pending where
  opener : Delta
  extraArgs : String
  deriving DecidableEq, Repr, Inhabited

/-- `outputs[-1] += token` (agent.py line 227): the continuation
fragment's argument text is concatenated onto the most recently started
pending tool call. -/
def appendCont : List Pending → Frag → List Pending
  | [], _ => []
  | [p], f => [{ p with extraArgs := p.extraArgs ++ f.args.getD "" }]
  | p :: ps, f => p :: appendCont ps f

/-- One step of the collector (agent.py lines 202-229): a fragment with
a truthy id or name opens a new pending call; otherwise the delta is an
argument continuation for `outputs[-1]`, discarded when `outputs` is
empty; a delta with no tool-call payload is skipped. -/
def collectStep (outs : List Pending) (d : Delta) : List Pending :=
  match chunkOrCall d with
  | none => outs
  | some f =>
    if truthyO f.id || truthyO f.name then
      outs ++ [⟨d, ""⟩]
    else
      appendCont outs f

/-- The whole collector: fold the turn's deltas into `outputs`. -/
def collectDeltas (ds : List Delta) : List Pending :=
  ds.foldl collectStep []

/-- The complete tool call represented by a pending output: its opening
fragment's id/name plus the concatenation of all argument text. -/
def Pending.toCall (p : Pending) : Option (Option String × Option String × String) :=
  (chunkOrCall p.opener).map fun f => (f.id, f.name, f.args.getD "" ++ p.extraArgs)

/-- The `tool_calls` of an accumulated output `x`, as langchain derives
them.  A chunk-opened output yields one complete call when its group has
a name and its accumulated argument text parses as JSON (`parse`); with
no parse it lands in `invalid_tool_calls` and `tool_calls` stays empty.
An output that carried complete `tool_calls` directly keeps them.  An
old-format-only output has empty `tool_call_chunks`, hence empty
`tool_calls`. -/
def pendingToolCalls (parse : String → Option ArgsD) (p : Pending) : List CallRec :=
  match p.opener.chunks.head? with
  | some f =>
    match f.name with
    | some n =>
      match parse (f.args.getD "" ++ p.extraArgs) with
      | some a => [{ id := f.id, name := n, args := a }]
      | none => []
    | none => []
  | none => p.opener.calls

/-- The list comprehension at agent.py lines 231-237: outputs with empty
`tool_calls` are dropped, the rest become `AIMessage`s whose
`tool_call_id` is the first call's id. -/
def buildMsgs (parse : String → Option ArgsD) (ps : List Pending) : List AIMsg :=
  ps.filterMap fun p =>
    match pendingToolCalls parse p with
    | [] => none
    | tc :: rest => some ⟨tc :: rest, tc.id⟩

/-- `QueueCallbackHandler.on_llm_new_token`'s final-answer detection
(agent.py lines 137-147): complete `tool_calls` first, then
`tool_call_chunks`, then the old format; in each case only the first
entry's name is compared against `"final_answer"`. -/
def deltaFA (d : Delta) : Bool :=
  match d.calls.head? with
  | some c => c.name == "final_answer"
  | none =>
    match d.chunks.head? with
    | some f => f.name == some "final_answer"
    | none =>
      match d.old.head? with
      | some o => o.fname == some "final_answer"
      | none => false

/-- An item published to the `asyncio.Queue`: a streamed chunk, the
`<<STEP_END>>` sentinel, or the `<<DONE>>` sentinel. -/
inductive QItem where
  | token (d : Delta)
  | stepEnd
  | done
  deriving DecidableEq, Repr

/-- `QueueCallbackHandler.__aiter__` (agent.py lines 120-129), applied
to the queue contents: items are delivered in order until `<<DONE>>`,
which stops iteration and is itself not delivered.  (`<<STEP_END>>` is
an ordinary truthy string and IS delivered.) -/
def aiterDeliver : List QItem → List QItem
  | [] => []
  | .done :: _ => []
  | x :: rest => x :: aiterDeliver rest

/-- Result of one whole invocation of the composed model: the loop
output plus the full sequence of items the handler published to the
queue. -/
structure FullOut where
  res : Except String RetVal
  scratch : List SMsg
  turnsRun : Nat
  trace : List QItem
  deriving DecidableEq, Repr

/-- The composed invocation: per executed turn, the handler publishes
every delta and then (`on_llm_end`, agent.py lines 152-156) `<<DONE>>`
if `final_answer_seen` — a flag set by any final-answer delta and never
reset — or `<<STEP_END>>` otherwise; the same deltas are folded by the
collector into messages that drive the agent loop exactly as `loopGo`
does. -/
def fullGo (impl : String → ArgsD → Except String String)
    (parse : String → Option ArgsD)
    (turnsD : List (List Delta)) (scheds : List (List Nat)) :
    Nat → Nat → Bool → List SMsg → List QItem → FullOut
  | 0, count, _, scratch, trace => ⟨.ok .noAnswerDict, scratch, count, trace⟩
  | fuel + 1, count, flag, scratch, trace =>
    let ds := turnsD.getD count []
    let flag2 := flag || ds.any deltaFA
    let trace2 := trace ++ ds.map QItem.token ++
      [if flag2 then QItem.done else QItem.stepEnd]
    match runTurn impl (buildMsgs parse (collectDeltas ds)) (scheds.getD count []) with
    | .error e => ⟨.error e, scratch, count + 1, trace2⟩
    | .ok (entries, ffa) =>
      match ffa with
      | some tc =>
        match tc.args.answer with
        | none => ⟨.error "KeyError", scratch ++ entries, count + 1, trace2⟩
        | some a =>
          ⟨.ok (if a = "" then .noAnswerDict else .callDict tc),
            scratch ++ entries, count + 1, trace2⟩
      | none => fullGo impl parse turnsD scheds fuel (count + 1) flag2 (scratch ++ entries) trace2

/-- One invocation driven by per-turn delta streams, starting from a
fresh handler (flag down, empty queue) and a fresh scratchpad. -/
def invokeFull (impl : String → ArgsD → Except String String)
    (parse : String → Option ArgsD)
    (turnsD : List (List Delta)) (scheds : List (List Nat)) (maxIter : Nat) : FullOut :=
  fullGo impl parse turnsD scheds maxIter 0 false [] []

/-- Does any delta of turns `0..j` (inclusive) carry a final-answer tool
call, as detected by the handler? -/
def faUpTo (turnsD : List (List Delta)) (j : Nat) : Bool :=
  (List.range (j + 1)).any fun i => (turnsD.getD i []).any deltaFA

/-! ## The two stream consumers -/

/-- `json.dumps` of a (string-valued) argument dict, for the
complete-`tool_calls` branch of the consumers. -/
def jsonDumps (a : ArgsD) : String :=
  let fields :=
    (match a.answer with
     | some s => ["\"answer\": \"" ++ s ++ "\""]
     | none => []) ++
    a.rest.map fun p => "\"" ++ p.1 ++ "\": \"" ++ p.2 ++ "\""
  "\x7b" ++ String.intercalate ", " fields ++ "\x7d"

/-- Is the argument dict empty (falsy in Python)? -/
def ArgsD.isEmptyD (a : ArgsD) : Bool :=
  a.answer.isNone && a.rest.isEmpty

/-- The `(tool_name, tool_args)` extraction of app.py lines 76-101:
complete `tool_calls` first (args dict dumped to JSON, empty dict
dropped), streaming `tool_call_chunks` overriding name/args when truthy,
and the old format as fallback when both are still falsy. -/
def tokNA (d : Delta) : Option String × Option String :=
  let nca : Option String × Option String :=
    match d.calls.head? with
    | some c => (some c.name, if c.args.isEmptyD then none else some (jsonDumps c.args))
    | none => (none, none)
  let ncb : Option String × Option String :=
    match d.chunks.head? with
    | some f =>
      ((if truthyO f.name then f.name else nca.1),
       (if truthyO f.args then f.args else nca.2))
    | none => nca
  if !truthyO ncb.1 && !truthyO ncb.2 then
    match d.old.head? with
    | some o => (o.fname, o.fargs)
    | none => ncb
  else ncb

/-- The `<step><step_name>...</step_name>` header emitted for a tool
name (app.py line 104). -/
def stepHeader (n : String) : String :=
  "<step><step_name>" ++ n ++ "</step_name>"

/-- `stream_generator` (app.py lines 54-111; also `stream_response` in
lambda-code/lambda_handler.py), applied to the queue contents:
`<<DONE>>` breaks the loop; `<<STEP_END>>` yields `"</step>"` unless the
final answer is already complete (and completes it once the final-answer
step has started); any other token yields a step header when a truthy
tool name was extracted plus the argument text when truthy, and is
swallowed entirely once the final answer is complete. -/
def consumeA (started compl_ : Bool) : List QItem → List String
  | [] => []
  | .done :: _ => []
  | .stepEnd :: rest =>
    if compl_ then consumeA started compl_ rest
    else "</step>" :: consumeA started (if started then true else compl_) rest
  | .token d :: rest =>
    if compl_ then consumeA started compl_ rest
    else
      let na := tokNA d
      let hdr := if truthyO na.1 then [stepHeader (na.1.getD "")] else []
      let argl := if truthyO na.2 then [na.2.getD ""] else []
      hdr ++ argl ++ consumeA (started || na.1 == some "final_answer") compl_ rest

/-- `stream_response` (application/api/lambda_handler.py lines 42-54),
applied to the queue contents: it iterates the handler's subscription
(so it stops at `<<DONE>>`), translates `<<STEP_END>>` to `"</step>"`
unconditionally, and reads tokens only through the old-format
`additional_kwargs` shape. -/
def consumeB : List QItem → List String
  | [] => []
  | .done :: _ => []
  | .stepEnd :: rest => "</step>" :: consumeB rest
  | .token d :: rest =>
    match d.old.head? with
    | some o =>
      (if truthyO o.fname then [stepHeader (o.fname.getD "")] else []) ++
      (if truthyO o.fargs then [o.fargs.getD ""] else []) ++
      consumeB rest
    | none => consumeB rest

/-! ## Shared concrete exemplars (used by counterexamples and witnesses) -/

/-- Tool registry in which every tool succeeds with output `"out"`. -/
def exImpl : String → ArgsD → Except String String := fun _ _ => .ok "out"

/-- Tool registry in which the tool named `boom` raises. -/
def exImplBoom : String → ArgsD → Except String String :=
  fun n _ => if n = "boom" then .error "boom!" else .ok "out"

/-- A collected message holding one `final_answer` call with the given
`answer` argument. -/
def exMsgFA (ans : String) : AIMsg :=
  ⟨[⟨some "1", "final_answer", ⟨some ans, []⟩⟩], some "1"⟩

/-- A collected message holding one `add` call. -/
def exMsgAdd : AIMsg := ⟨[⟨some "2", "add", {}⟩], some "2"⟩

/-- A collected message holding one call to the raising tool. -/
def exMsgBoom : AIMsg := ⟨[⟨some "3", "boom", {}⟩], some "3"⟩

/-! ## Basic loop lemmas -/

/-- Per-iteration budget: starting at `count` with `fuel` iterations
left, at most `fuel` further dispatch cycles happen. -/
theorem loopGo_turnsRun_le (impl : String → ArgsD → Except String String)
    (turns : List (List AIMsg)) (scheds : List (List Nat))
    (fuel count : Nat) (scratch : List SMsg) :
    (loopGo impl turns scheds fuel count scratch).turnsRun ≤ count + fuel := by
  induction fuel generalizing count scratch with
  | zero => simp [loopGo]
  | succ n ih =>
    simp only [loopGo]
    split
    · simp
    · split
      · split <;> simp
      · rename_i entries ffa heq
        have := ih (count + 1) (scratch ++ entries)
        omega

/-- The loop never rewinds the iteration counter. -/
theorem loopGo_turnsRun_ge (impl : String → ArgsD → Except String String)
    (turns : List (List AIMsg)) (scheds : List (List Nat))
    (fuel count : Nat) (scratch : List SMsg) :
    count ≤ (loopGo impl turns scheds fuel count scratch).turnsRun := by
  induction fuel generalizing count scratch with
  | zero => simp [loopGo]
  | succ n ih =>
    simp only [loopGo]
    split
    · simp
    · split
      · split <;> simp
      · rename_i entries ffa heq
        have := ih (count + 1) (scratch ++ entries)
        omega

/-- Claim C3.  For every invocation and every `max_iterations` value,
the loop in `CustomAgentExecutor.invoke` performs at most
`max_iterations` model-call/tool-dispatch cycles and then terminates
(the embedding is a total function), even if no turn ever selects the
`final_answer` tool. -/
theorem c3_at_most_max_iterations (impl : String → ArgsD → Except String String)
    (turns : List (List AIMsg)) (scheds : List (List Nat)) (maxIter : Nat) :
    (invoke impl turns scheds maxIter).turnsRun ≤ maxIter := by
  simpa using loopGo_turnsRun_le impl turns scheds maxIter 0 []

/-! ## C10: only the first element of each message's tool_calls matters -/

/-- A message with all tool calls beyond the first dropped. -/
def truncMsg (m : AIMsg) : AIMsg :=
  { m with toolCalls := m.toolCalls.take 1 }

@[simp]
theorem truncMsg_head? (m : AIMsg) : (truncMsg m).toolCalls.head? = m.toolCalls.head? := by
  simp [truncMsg, List.head?_take]

@[simp]
theorem truncMsg_toolCallId (m : AIMsg) : (truncMsg m).toolCallId = m.toolCallId := rfl

/-- The error component of a fallible result. -/
def exceptErr {α : Type} : Except String α → Option String
  | .error e => some e
  | .ok _ => none

@[simp]
theorem exceptErr_map {α β : Type} (f : α → β) (x : Except String α) :
    exceptErr (x.map f) = exceptErr x := by
  cases x <;> rfl

theorem exceptErr_eq_some {α : Type} {x : Except String α} {e : String} :
    exceptErr x = some e ↔ x = .error e := by
  cases x <;> simp [exceptErr]

theorem execute_tool_trunc (impl : String → ArgsD → Except String String) (m : AIMsg) :
    execute_tool impl (truncMsg m) = execute_tool impl m := by
  unfold execute_tool
  rw [truncMsg_head?]

theorem findFinal_trunc (msgs : List AIMsg) :
    findFinal (msgs.map truncMsg) = findFinal msgs := by
  induction msgs with
  | nil => rfl
  | cons m ms ih =>
    simp only [findFinal, List.map_cons, List.findSome?_cons, truncMsg_head?] at *
    cases m.toolCalls.head?.bind fun tc =>
        if tc.name = "final_answer" then some tc else none with
    | some tc => rfl
    | none => exact ih

theorem pyDictGet_zip_trunc (msgs : List AIMsg) (obs : List ToolMsg) (k : Option String) :
    pyDictGet ((msgs.map truncMsg).zip obs) k = pyDictGet (msgs.zip obs) k := by
  induction msgs generalizing obs with
  | nil => rfl
  | cons m ms ih =>
    cases obs with
    | nil => rfl
    | cons o os =>
      rw [List.map_cons, List.zip_cons_cons, List.zip_cons_cons]
      simp only [pyDictGet]
      rw [ih os]
      rfl

theorem scratchEntries_trunc (msgs0 : List AIMsg) (obs : List ToolMsg) (msgs : List AIMsg) :
    exceptErr (scratchEntries ((msgs0.map truncMsg).zip obs) (msgs.map truncMsg)) =
      exceptErr (scratchEntries (msgs0.zip obs) msgs) := by
  induction msgs with
  | nil => rfl
  | cons m ms ih =>
    simp only [List.map_cons, scratchEntries, pyDictGet_zip_trunc, truncMsg_toolCallId]
    cases pyDictGet (msgs0.zip obs) m.toolCallId with
    | none => rfl
    | some t => simpa using ih

theorem runTurn_trunc (impl : String → ArgsD → Except String String)
    (msgs : List AIMsg) (σ : List Nat) :
    (runTurn impl (msgs.map truncMsg) σ).map Prod.snd =
      (runTurn impl msgs σ).map Prod.snd := by
  unfold runTurn turnScratch
  have hmap : (msgs.map truncMsg).map (execute_tool impl) = msgs.map (execute_tool impl) := by
    rw [List.map_map]
    exact List.map_congr_left fun m _ => execute_tool_trunc impl m
  rw [hmap]
  cases hg : gatherSched σ (msgs.map (execute_tool impl)) with
  | error e => rfl
  | ok obs =>
    dsimp only
    have hst := scratchEntries_trunc msgs obs msgs
    cases h2 : scratchEntries (msgs.zip obs) msgs with
    | error e =>
      rw [h2] at hst
      simp only [exceptErr] at hst
      rw [exceptErr_eq_some.mp hst]
    | ok entries =>
      rw [h2] at hst
      simp only [exceptErr] at hst
      cases h3 : scratchEntries ((msgs.map truncMsg).zip obs) (msgs.map truncMsg) with
      | error e => rw [h3] at hst; simp [exceptErr] at hst
      | ok entriesT =>
        simp only [Except.map, findFinal_trunc]

/-- The observable core of a loop outcome: the returned-or-raised value
and the number of cycles run (the scratchpad aside). -/
def loopCore (o : LoopOut) : Except String RetVal × Nat :=
  (o.res, o.turnsRun)

theorem loopGo_trunc (impl : String → ArgsD → Except String String)
    (turns : List (List AIMsg)) (scheds : List (List Nat)) (fuel : Nat) :
    ∀ (count : Nat) (s1 s2 : List SMsg),
      loopCore (loopGo impl (turns.map (·.map truncMsg)) scheds fuel count s1) =
        loopCore (loopGo impl turns scheds fuel count s2) := by
  induction fuel with
  | zero => intro _ _ _; rfl
  | succ n ih =>
    intro count s1 s2
    have hgd : (turns.map (·.map truncMsg)).getD count [] =
        (turns.getD count []).map truncMsg := by
      simp only [List.getD_eq_getElem?_getD, List.getElem?_map]
      cases turns[count]? <;> rfl
    simp only [loopGo, hgd]
    have hrt := runTurn_trunc impl (turns.getD count []) (scheds.getD count [])
    cases h : runTurn impl (turns.getD count []) (scheds.getD count []) with
    | error e =>
      rw [h] at hrt
      cases h3 : runTurn impl ((turns.getD count []).map truncMsg) (scheds.getD count []) with
      | error eT =>
        rw [h3] at hrt
        simp only [Except.map] at hrt
        cases hrt
        rfl
      | ok prT =>
        rw [h3] at hrt
        simp [Except.map] at hrt
    | ok pr =>
      obtain ⟨entries, ffa⟩ := pr
      rw [h] at hrt
      cases h3 : runTurn impl ((turns.getD count []).map truncMsg) (scheds.getD count []) with
      | error eT =>
        rw [h3] at hrt
        simp [Except.map] at hrt
      | ok prT =>
        obtain ⟨entriesT, ffaT⟩ := prT
        rw [h3] at hrt
        simp only [Except.map] at hrt
        cases hrt
        cases ffa with
        | some tc =>
          dsimp only
          cases tc.args.answer <;> rfl
        | none =>
          dsimp only
          exact ih (count + 1) (s1 ++ entriesT) (s2 ++ entries)

/-- Claim C10.  Both tool dispatch and terminating-tool detection read
only the first element of each collected message's `tool_calls` list:
`execute_tool` runs only the head call and tags the result with the head
call's id, the final-answer scan compares only the head call's name, and
consequently the loop's returned value and cycle count are unchanged
when every tool call after the first is dropped from every message —
the extra calls are never executed and cannot trigger termination. -/
theorem c10_first_tool_call_only :
    (∀ (impl : String → ArgsD → Except String String) (tc : CallRec)
        (rest : List CallRec) (cid : Option String),
      execute_tool impl ⟨tc :: rest, cid⟩ = execute_tool impl ⟨[tc], cid⟩) ∧
    (∀ (impl : String → ArgsD → Except String String) (tc : CallRec)
        (rest : List CallRec) (cid : Option String),
      (execute_tool impl ⟨tc :: rest, cid⟩).map ToolMsg.toolCallId =
        (impl tc.name tc.args).map fun _ => tc.id) ∧
    (∀ msgs : List AIMsg, findFinal (msgs.map truncMsg) = findFinal msgs) ∧
    (∀ (impl : String → ArgsD → Except String String)
        (turns : List (List AIMsg)) (scheds : List (List Nat)) (maxIter : Nat),
      loopCore (invoke impl (turns.map (·.map truncMsg)) scheds maxIter) =
        loopCore (invoke impl turns scheds maxIter)) := by
  refine ⟨fun impl tc rest cid => rfl, fun impl tc rest cid => ?_, findFinal_trunc, ?_⟩
  · simp only [execute_tool, List.head?]
    cases impl tc.name tc.args <;> rfl
  · intro impl turns scheds maxIter
    exact loopGo_trunc impl turns scheds maxIter 0 [] []

/-! ## Loop advancement helpers -/

/-- One successful, final-answer-free iteration just advances the loop. -/
theorem loopGo_step_no_final (impl : String → ArgsD → Except String String)
    (turns : List (List AIMsg)) (scheds : List (List Nat))
    {fuel count : Nat} {scratch es : List SMsg}
    (h : runTurn impl (turns.getD count []) (scheds.getD count []) = .ok (es, none)) :
    loopGo impl turns scheds (fuel + 1) count scratch =
      loopGo impl turns scheds fuel (count + 1) (scratch ++ es) := by
  simp only [loopGo, h]

/-- Skipping `i` successful, final-answer-free iterations. -/
theorem loopGo_skip (impl : String → ArgsD → Except String String)
    (turns : List (List AIMsg)) (scheds : List (List Nat)) :
    ∀ (i fuel count : Nat) (scratch : List SMsg),
      (∀ j, j < i → ∃ es, runTurn impl (turns.getD (count + j) []) (scheds.getD (count + j) [])
          = .ok (es, none)) →
      ∃ scr2, loopGo impl turns scheds (fuel + i) count scratch =
        loopGo impl turns scheds fuel (count + i) scr2 := by
  intro i
  induction i with
  | zero => intro fuel count scratch _; exact ⟨scratch, rfl⟩
  | succ n ih =>
    intro fuel count scratch h
    obtain ⟨es, h0⟩ := h 0 (Nat.succ_pos n)
    rw [Nat.add_zero] at h0
    have hstep : loopGo impl turns scheds (fuel + n + 1) count scratch =
        loopGo impl turns scheds (fuel + n) (count + 1) (scratch ++ es) :=
      loopGo_step_no_final impl turns scheds h0
    have hshift : ∀ j, j < n → ∃ es2,
        runTurn impl (turns.getD (count + 1 + j) []) (scheds.getD (count + 1 + j) [])
          = .ok (es2, none) := by
      intro j hj
      have := h (j + 1) (by omega)
      simpa [Nat.add_assoc, Nat.add_comm 1 j] using this
    obtain ⟨scr2, hrest⟩ := ih fuel (count + 1) (scratch ++ es) hshift
    refine ⟨scr2, ?_⟩
    have h1 : fuel + (n + 1) = fuel + n + 1 := by omega
    have h2 : count + 1 + n = count + (n + 1) := by omega
    rw [h1, hstep, hrest, h2]

/-! ## C1: termination on final_answer and the returned answer -/

/-- Claim C1 counterexample.  A turn whose collected tool calls contain
a `final_answer` call with `answer` argument `""`: the loop does exit at
that turn, but because of the truthiness test `if final_answer` at
agent.py line 274 the invocation returns the fallback dict, whose answer
is `"No answer found"`, not the call's `answer` argument `""`. -/
theorem c1_counterexample :
    (invoke exImpl [[exMsgFA ""]] [[0]] 3).res = .ok .noAnswerDict ∧
    (invoke exImpl [[exMsgFA ""]] [[0]] 3).turnsRun = 1 ∧
    retAnswer .noAnswerDict ≠ some "" := by
  refine ⟨rfl, rfl, ?_⟩
  decide

/-- Claim C1, amended.  If the loop reaches turn `i` (all earlier turns
dispatch successfully and collect no message whose first tool call is
`final_answer`), turn `i` dispatches successfully and its first
final-answer message's head call `tc` carries a present and **nonempty**
`answer` argument, then `invoke` exits at that turn — `i + 1` cycles,
no further model calls — and returns the tool-call dict `tc` itself,
whose `args.answer` is exactly that `answer` argument.  (With an empty
`answer` the loop still exits at that turn but the fallback dict is
returned, as the counterexample shows.) -/
theorem c1_amended (impl : String → ArgsD → Except String String)
    (turns : List (List AIMsg)) (scheds : List (List Nat)) (maxIter i : Nat)
    (es : List SMsg) (tc : CallRec) (a : String)
    (hi : i < maxIter)
    (hpre : ∀ j, j < i → ∃ esj, runTurn impl (turns.getD j []) (scheds.getD j [])
        = .ok (esj, none))
    (hit : runTurn impl (turns.getD i []) (scheds.getD i []) = .ok (es, some tc))
    (hans : tc.args.answer = some a) (hne : a ≠ "") :
    (invoke impl turns scheds maxIter).res = .ok (.callDict tc) ∧
    (invoke impl turns scheds maxIter).turnsRun = i + 1 ∧
    retAnswer (.callDict tc) = some a := by
  have hpre0 : ∀ j, j < i → ∃ esj,
      runTurn impl (turns.getD (0 + j) []) (scheds.getD (0 + j) []) = .ok (esj, none) := by
    simpa using hpre
  obtain ⟨d, hd⟩ : ∃ d, maxIter = (d + 1) + i := ⟨maxIter - i - 1, by omega⟩
  obtain ⟨scr2, hskip⟩ := loopGo_skip impl turns scheds i (d + 1) 0 [] hpre0
  have : invoke impl turns scheds maxIter = loopGo impl turns scheds (d + 1) i scr2 := by
    rw [invoke, hd, hskip, Nat.zero_add]
  have hres : loopGo impl turns scheds (d + 1) i scr2 =
      ⟨.ok (.callDict tc), scr2 ++ es, i + 1⟩ := by
    simp only [loopGo, hit, hans]
    rw [if_neg hne]
  rw [this, hres]
  exact ⟨rfl, rfl, by simp [retAnswer, hans]⟩

/-- Witness for C1 (amended): a concrete invocation whose single turn
carries `final_answer` with answer `"42"` returns that call's dict. -/
theorem c1_witness :
    (invoke exImpl [[exMsgFA "42"]] [[0]] 3).res
        = .ok (.callDict ⟨some "1", "final_answer", ⟨some "42", []⟩⟩) ∧
    (invoke exImpl [[exMsgFA "42"]] [[0]] 3).turnsRun = 0 + 1 ∧
    retAnswer (.callDict ⟨some "1", "final_answer", ⟨some "42", []⟩⟩) = some "42" :=
  c1_amended exImpl [[exMsgFA "42"]] [[0]] 3 0
    [.call (exMsgFA "42"), .result ⟨"out", some "1"⟩]
    ⟨some "1", "final_answer", ⟨some "42", []⟩⟩ "42"
    (by decide) (fun j hj => absurd hj (by omega)) rfl rfl (by decide)

/-! ## C2: budget exhaustion returns the fallback dict -/

/-- Claim C2 counterexample.  An invocation in which no turn ever
produces a `final_answer` tool call but a dispatched tool raises: the
exception propagates out of `invoke` (the `gather` at agent.py lines
243-245 has no handler), so the fallback dict is *not* returned. -/
theorem c2_counterexample :
    (invoke exImplBoom [[exMsgBoom]] [[0]] 3).res = .error "boom!" ∧
    (∀ msgs ∈ [[exMsgBoom]], ∀ m ∈ msgs, ∀ tc ∈ m.toolCalls, tc.name ≠ "final_answer") := by
  exact ⟨rfl, by decide⟩

/-- Claim C2, amended.  If every turn within the budget dispatches
successfully (no tool raises, no empty message) and collects no message
whose first tool call is named `final_answer`, then `invoke` runs the
full budget of `maxIter` cycles and returns exactly the dict
`\x7b"answer": "No answer found", "tools_used": []\x7d`.  (If a tool
raises, the exception propagates and nothing is returned, as the
counterexample shows.) -/
theorem c2_amended (impl : String → ArgsD → Except String String)
    (turns : List (List AIMsg)) (scheds : List (List Nat)) (maxIter : Nat)
    (hpre : ∀ j, j < maxIter → ∃ esj, runTurn impl (turns.getD j []) (scheds.getD j [])
        = .ok (esj, none)) :
    (invoke impl turns scheds maxIter).res = .ok .noAnswerDict ∧
    (invoke impl turns scheds maxIter).turnsRun = maxIter := by
  have hpre0 : ∀ j, j < maxIter → ∃ esj,
      runTurn impl (turns.getD (0 + j) []) (scheds.getD (0 + j) []) = .ok (esj, none) := by
    simpa using hpre
  obtain ⟨scr2, hskip⟩ := loopGo_skip impl turns scheds maxIter 0 0 [] hpre0
  have heq : invoke impl turns scheds maxIter = loopGo impl turns scheds 0 (0 + maxIter) scr2 := by
    show loopGo impl turns scheds maxIter 0 [] = _
    conv_lhs => rw [show maxIter = 0 + maxIter from (Nat.zero_add maxIter).symm]
    exact hskip
  rw [heq]
  simp [loopGo]

/-- Witness for C2 (amended): one `add`-only turn and budget 1. -/
theorem c2_witness :
    (invoke exImpl [[exMsgAdd]] [[0]] 1).res = .ok .noAnswerDict ∧
    (invoke exImpl [[exMsgAdd]] [[0]] 1).turnsRun = 1 :=
  c2_amended exImpl [[exMsgAdd]] [[0]] 1
    (fun j hj => by
      have hj0 : j = 0 := by omega
      subst hj0
      exact ⟨[.call exMsgAdd, .result ⟨"out", some "2"⟩], rfl⟩)

/-! ## C4: a failing tool invocation aborts the whole turn -/

/-- Claim C4 counterexample.  A two-call batch in which the first tool
raises and its sibling would succeed: `invoke` propagates the exception,
the scratchpad stays empty (no ToolResultMessage encoding the failure,
and the sibling's result is discarded), and the loop stops after one
cycle instead of proceeding to the next iteration. -/
theorem c4_counterexample :
    invoke exImplBoom [[exMsgBoom, exMsgAdd]] [[0, 1]] 3 = ⟨.error "boom!", [], 1⟩ ∧
    execute_tool exImplBoom exMsgAdd = .ok ⟨"out", some "2"⟩ := by
  exact ⟨rfl, rfl⟩

/-- Claim C4, amended.  When the dispatch batch of the current turn
contains a tool invocation that raises (observed by the completion
schedule), the whole invocation aborts with an exception: nothing — no
`(call, result)` pair and no failure-encoding ToolResultMessage — is
appended to the scratchpad for that turn, sibling results are discarded,
and the loop stops after this cycle instead of proceeding. -/
theorem c4_amended (impl : String → ArgsD → Except String String)
    (turns : List (List AIMsg)) (scheds : List (List Nat))
    (fuel count : Nat) (scratch : List SMsg)
    (hfail : ∃ i ∈ scheds.getD count [], ∃ e0,
        ((turns.getD count []).map (execute_tool impl)).get? i = some (.error e0)) :
    ∃ e, loopGo impl turns scheds (fuel + 1) count scratch =
      ⟨.error e, scratch, count + 1⟩ := by
  obtain ⟨i, hmem, e0, hget⟩ := hfail
  have hfe : firstErr (scheds.getD count []) ((turns.getD count []).map (execute_tool impl))
      ≠ none := by
    intro hnone
    simp only [firstErr] at hnone
    rw [List.findSome?_eq_none_iff] at hnone
    have := hnone i hmem
    rw [hget] at this
    simp at this
  cases hfe2 : firstErr (scheds.getD count [])
      ((turns.getD count []).map (execute_tool impl)) with
  | none => exact absurd hfe2 hfe
  | some e =>
    refine ⟨e, ?_⟩
    simp only [loopGo, runTurn, gatherSched, hfe2]

/-- Witness for C4 (amended): the concrete failing batch of the
counterexample aborts the loop with an error. -/
theorem c4_witness :
    ∃ e, loopGo exImplBoom [[exMsgBoom, exMsgAdd]] [[0, 1]] (2 + 1) 0 [] =
      ⟨.error e, [], 0 + 1⟩ :=
  c4_amended exImplBoom [[exMsgBoom, exMsgAdd]] [[0, 1]] 2 0 []
    ⟨0, by decide, "boom!", rfl⟩

/-! ## C5: the scratchpad is made of adjacent (call, result) pairs -/

theorem isOk_exists {α : Type} {x : Except String α} (h : x.isOk) : ∃ v, x = .ok v := by
  cases x with
  | error e => exact Bool.noConfusion h
  | ok v => exact ⟨v, rfl⟩

/-- The (total) successful value of a dispatched tool call; meaningful
wherever `execute_tool` succeeds. -/
def execD (impl : String → ArgsD → Except String String) (m : AIMsg) : ToolMsg :=
  match execute_tool impl m with
  | .ok t => t
  | .error e => ⟨e, none⟩

theorem execD_spec {impl : String → ArgsD → Except String String} {m : AIMsg}
    (h : (execute_tool impl m).isOk) : execute_tool impl m = .ok (execD impl m) := by
  obtain ⟨t, ht⟩ := isOk_exists h
  simp [execD, ht]

theorem gather_all_ok (impl : String → ArgsD → Except String String)
    (msgs : List AIMsg) (σ : List Nat)
    (hok : ∀ m ∈ msgs, (execute_tool impl m).isOk) :
    gatherSched σ (msgs.map (execute_tool impl)) = .ok (msgs.map (execD impl)) := by
  have hmap : msgs.map (execute_tool impl) = (msgs.map (execD impl)).map Except.ok := by
    rw [List.map_map]
    exact List.map_congr_left fun m hm => execD_spec (hok m hm)
  rw [hmap]
  have hfe : firstErr σ ((msgs.map (execD impl)).map Except.ok) = none := by
    rw [firstErr, List.findSome?_eq_none_iff]
    intro i _
    cases hg : ((msgs.map (execD impl)).map Except.ok).get? i with
    | none => rfl
    | some x =>
      have : ∃ v, x = Except.ok v := by
        rw [List.get?_map] at hg
        cases hv : (msgs.map (execD impl)).get? i with
        | none => rw [hv] at hg; simp at hg
        | some v =>
          rw [hv] at hg
          simp at hg
          exact ⟨v, hg.symm⟩
      obtain ⟨v, rfl⟩ := this
      rfl
  rw [gatherSched, hfe]
  have : ∀ (vs : List ToolMsg), (vs.map Except.ok).mapM (fun t => t)
      = (Except.ok vs : Except String (List ToolMsg)) := by
    intro vs
    induction vs with
    | nil => rfl
    | cons v rest ih =>
      rw [List.map_cons, List.mapM_cons]
      rw [ih]
      rfl
  exact this (msgs.map (execD impl))

theorem pyDictGet_not_mem (d : List (AIMsg × ToolMsg)) (k : Option String)
    (h : ∀ p ∈ d, p.1.toolCallId ≠ k) : pyDictGet d k = none := by
  induction d with
  | nil => rfl
  | cons p rest ih =>
    rw [pyDictGet, ih fun q hq => h q (List.mem_cons_of_mem p hq)]
    have : (p.1.toolCallId == k) = false := by
      simpa using h p (List.mem_cons_self p rest)
    rw [this]
    simp

theorem pyDictGet_pairs (f : AIMsg → ToolMsg) :
    ∀ (msgs : List AIMsg) (m : AIMsg),
      (msgs.map AIMsg.toolCallId).Nodup → m ∈ msgs →
      pyDictGet (msgs.map fun x => (x, f x)) m.toolCallId = some (f m) := by
  intro msgs
  induction msgs with
  | nil => intro m _ hm; cases hm
  | cons m0 ms ih =>
    intro m hnd hm
    rw [List.map_cons, List.nodup_cons] at hnd
    rw [List.map_cons]
    cases List.mem_cons.mp hm with
    | inl heq =>
      subst heq
      have hnone : pyDictGet (ms.map fun x => (x, f x)) m.toolCallId = none := by
        apply pyDictGet_not_mem
        intro p hp hk
        obtain ⟨x, hx, rfl⟩ := List.mem_map.mp hp
        exact hnd.1 (hk ▸ List.mem_map_of_mem AIMsg.toolCallId hx)
      rw [pyDictGet, hnone]
      simp
    | inr hmem =>
      rw [pyDictGet, ih m hnd.2 hmem]

theorem scratchEntries_all (dict : List (AIMsg × ToolMsg)) (g : AIMsg → ToolMsg) :
    ∀ (sub : List AIMsg),
      (∀ m ∈ sub, pyDictGet dict m.toolCallId = some (g m)) →
      scratchEntries dict sub =
        .ok (sub.flatMap fun m => [SMsg.call m, SMsg.result (g m)]) := by
  intro sub
  induction sub with
  | nil => intro _; rfl
  | cons m ms ih =>
    intro h
    rw [scratchEntries, h m (List.mem_cons_self m ms),
      ih fun x hx => h x (List.mem_cons_of_mem m hx)]
    rfl

theorem turnPairs_eq (impl : String → ArgsD → Except String String)
    (msgs : List AIMsg) (hok : ∀ m ∈ msgs, (execute_tool impl m).isOk) :
    turnPairs impl msgs = msgs.flatMap fun m => [SMsg.call m, SMsg.result (execD impl m)] := by
  induction msgs with
  | nil => rfl
  | cons m ms ih =>
    rw [turnPairs, List.flatMap_cons, List.flatMap_cons,
      execD_spec (hok m (List.mem_cons_self m ms))]
    rw [turnPairs] at ih
    rw [ih fun x hx => hok x (List.mem_cons_of_mem m hx)]

theorem runTurn_ok (impl : String → ArgsD → Except String String)
    (msgs : List AIMsg) (σ : List Nat)
    (hok : ∀ m ∈ msgs, (execute_tool impl m).isOk)
    (hnd : (msgs.map AIMsg.toolCallId).Nodup) :
    runTurn impl msgs σ = .ok (turnPairs impl msgs, findFinal msgs) := by
  rw [runTurn, gather_all_ok impl msgs σ hok]
  have hzip : msgs.zip (msgs.map (execD impl)) = msgs.map fun m => (m, execD impl m) := by
    have := List.zip_map' id (execD impl) msgs
    simpa using this
  have hts : turnScratch msgs (msgs.map (execD impl)) = .ok (turnPairs impl msgs) := by
    rw [turnScratch, hzip,
      scratchEntries_all (msgs.map fun m => (m, execD impl m)) (execD impl) msgs
        (fun m hm => pyDictGet_pairs (execD impl) msgs m hnd hm),
      turnPairs_eq impl msgs hok]
  dsimp only
  rw [hts]

/-- Each turn index yields either a member of `turns` or the empty
turn. -/
theorem getD_mem_or_nil {α : Type} (l : List (List α)) (k : Nat) :
    l.getD k [] ∈ l ∨ l.getD k [] = [] := by
  rw [List.getD_eq_getElem?_getD]
  cases h : l[k]? with
  | none => right; rfl
  | some t => left; simpa using List.getElem?_mem h

theorem loopGo_scratch (impl : String → ArgsD → Except String String)
    (turns : List (List AIMsg)) (scheds : List (List Nat))
    (hok : ∀ k, ∀ m ∈ turns.getD k [], (execute_tool impl m).isOk)
    (hnd : ∀ k, ((turns.getD k []).map AIMsg.toolCallId).Nodup) :
    ∀ (fuel count : Nat) (scratch : List SMsg),
      (loopGo impl turns scheds fuel count scratch).scratch =
        scratch ++ (List.range ((loopGo impl turns scheds fuel count scratch).turnsRun - count)).flatMap
          (fun k => turnPairs impl (turns.getD (count + k) [])) := by
  intro fuel
  induction fuel with
  | zero => intro count scratch; simp [loopGo]
  | succ n ih =>
    intro count scratch
    have hrt := runTurn_ok impl (turns.getD count []) (scheds.getD count [])
      (hok count) (hnd count)
    simp only [loopGo, hrt]
    cases hff : findFinal (turns.getD count []) with
    | some tc =>
      cases hans : tc.args.answer with
      | none =>
        simp only [hans]
        simp [Nat.add_sub_cancel_left, List.range_succ_eq_map]
      | some a =>
        simp only [hans]
        simp [Nat.add_sub_cancel_left, List.range_succ_eq_map]
    | none =>
      dsimp only
      rw [ih (count + 1) (scratch ++ turnPairs impl (turns.getD count []))]
      have hge := loopGo_turnsRun_ge impl turns scheds n (count + 1)
        (scratch ++ turnPairs impl (turns.getD count []))
      set tr := (loopGo impl turns scheds n (count + 1)
        (scratch ++ turnPairs impl (turns.getD count []))).turnsRun with htr
      have h1 : tr - count = (tr - (count + 1)) + 1 := by omega
      have h2 : ∀ k : Nat, count + 1 + k = count + (k + 1) := fun k => by omega
      simp only [h1, List.range_succ_eq_map, List.flatMap_cons, List.flatMap_map,
        Nat.add_zero, List.append_assoc, Function.comp, Nat.succ_eq_add_one, h2]

/-- Claim C5.  For every invocation in which tool-call ids are unique
within each turn and every dispatch succeeds, the scratchpad is exactly
the concatenation, in turn order, of each executed turn's adjacent
`(ToolCall message, ToolResultMessage)` pairs in their original issue
order.  The statement holds for **every** completion schedule `scheds`
(the right-hand side does not mention it), which is the claimed
independence from the order in which the concurrently dispatched tool
tasks complete. -/
theorem c5_scratchpad_pairs (impl : String → ArgsD → Except String String)
    (turns : List (List AIMsg)) (scheds : List (List Nat)) (maxIter : Nat)
    (hok : ∀ msgs ∈ turns, ∀ m ∈ msgs, (execute_tool impl m).isOk)
    (hnd : ∀ msgs ∈ turns, (msgs.map AIMsg.toolCallId).Nodup) :
    (invoke impl turns scheds maxIter).scratch =
      (List.range (invoke impl turns scheds maxIter).turnsRun).flatMap
        (fun k => turnPairs impl (turns.getD k [])) := by
  have hok2 : ∀ k, ∀ m ∈ turns.getD k [], (execute_tool impl m).isOk := by
    intro k
    cases getD_mem_or_nil turns k with
    | inl h => exact hok _ h
    | inr h => rw [h]; intro m hm; cases hm
  have hnd2 : ∀ k, ((turns.getD k []).map AIMsg.toolCallId).Nodup := by
    intro k
    cases getD_mem_or_nil turns k with
    | inl h => exact hnd _ h
    | inr h => rw [h]; exact List.nodup_nil
  have := loopGo_scratch impl turns scheds hok2 hnd2 maxIter 0 []
  simpa [invoke] using this

/-- Witness for C5: a two-call turn executed under the reversed
completion schedule still yields the pairs in issue order. -/
theorem c5_witness :
    (invoke exImpl [[exMsgAdd, exMsgFA "5"]] [[1, 0]] 3).scratch =
      (List.range (invoke exImpl [[exMsgAdd, exMsgFA "5"]] [[1, 0]] 3).turnsRun).flatMap
        (fun k => turnPairs exImpl ([[exMsgAdd, exMsgFA "5"]].getD k [])) :=
  c5_scratchpad_pairs exImpl [[exMsgAdd, exMsgFA "5"]] [[1, 0]] 3
    (by decide) (by decide)

/-! ## C6 and C8: the stream collector -/

theorem collectDeltas_append (ds : List Delta) (d : Delta) :
    collectDeltas (ds ++ [d]) = collectStep (collectDeltas ds) d := by
  simp [collectDeltas, List.foldl_append]

/-- `outputs[-1] += token` on a nonempty outputs list rewrites exactly
the last pending call. -/
theorem appendCont_append (f : Frag) :
    ∀ (outs : List Pending) (p : Pending),
      appendCont (outs ++ [p]) f = outs ++ [⟨p.opener, p.extraArgs ++ f.args.getD ""⟩] := by
  intro outs
  induction outs with
  | nil => intro p; rfl
  | cons q qs ih =>
    intro p
    cases qs with
    | nil => simp [appendCont]
    | cons r rs =>
      have hstep : appendCont ((q :: r :: rs) ++ [p]) f =
          q :: appendCont ((r :: rs) ++ [p]) f := rfl
      rw [hstep, ih p]
      rfl

/-- A delta that opens a new pending call. -/
def startDelta (i n : Option String) (s : String) : Delta :=
  { chunks := [{ id := i, name := n, args := some s }] }

/-- A pure argument-continuation delta. -/
def contDelta (s : String) : Delta :=
  { chunks := [{ args := some s }] }

/-- Claim C6.  One collector step on the deltas seen so far: a delta
whose first tool-call fragment carries a nonempty id or name is appended
as a new pending ToolCall; a delta whose fragment carries neither is an
argument continuation appended to the arguments of the most recently
started pending ToolCall; a continuation arriving when no pending
ToolCall exists is discarded. -/
theorem c6_normalizer_tie_break (ds : List Delta) (d : Delta) (f : Frag)
    (hf : chunkOrCall d = some f) :
    ((truthyO f.id || truthyO f.name) = true →
      collectDeltas (ds ++ [d]) = collectDeltas ds ++ [⟨d, ""⟩]) ∧
    ((truthyO f.id || truthyO f.name) = false →
      (collectDeltas ds = [] → collectDeltas (ds ++ [d]) = []) ∧
      (∀ (outs : List Pending) (p : Pending), collectDeltas ds = outs ++ [p] →
        collectDeltas (ds ++ [d]) =
          outs ++ [⟨p.opener, p.extraArgs ++ f.args.getD ""⟩])) := by
  refine ⟨fun ht => ?_, fun hff => ⟨fun hnil => ?_, fun outs p hlast => ?_⟩⟩
  · rw [collectDeltas_append, collectStep, hf]
    dsimp only
    rw [if_pos ht]
  · rw [collectDeltas_append, collectStep, hf]
    dsimp only
    rw [if_neg (by simp [hff]), hnil]
    rfl
  · rw [collectDeltas_append, collectStep, hf]
    dsimp only
    rw [if_neg (by simp [hff]), hlast, appendCont_append]

/-- Witness for C6: a start delta followed by a continuation; the
continuation's text is appended to the pending call's arguments, and a
lone continuation with no pending call is discarded. -/
theorem c6_witness :
    (collectDeltas ([startDelta (some "c1") (some "add") "ab"] ++ [contDelta "cd"]) =
      [] ++ [⟨startDelta (some "c1") (some "add") "ab", "" ++ "cd"⟩]) ∧
    collectDeltas ([] ++ [contDelta "zz"]) = [] ∧
    collectDeltas ([] ++ [startDelta (some "c1") (some "add") "ab"]) =
      [] ++ [⟨startDelta (some "c1") (some "add") "ab", ""⟩] := by
  refine ⟨?_, ?_, ?_⟩
  · exact ((c6_normalizer_tie_break [startDelta (some "c1") (some "add") "ab"]
      (contDelta "cd") { args := some "cd" } rfl).2 (by decide)).2
      [] ⟨startDelta (some "c1") (some "add") "ab", ""⟩ rfl
  · exact ((c6_normalizer_tie_break [] (contDelta "zz") { args := some "zz" } rfl).2
      (by decide)).1 rfl
  · exact (c6_normalizer_tie_break [] (startDelta (some "c1") (some "add") "ab")
      { id := some "c1", name := some "add", args := some "ab" } rfl).1 (by decide)

/-- Folding a train of continuation deltas concatenates their argument
fragments, in order, onto the last pending call. -/
theorem foldl_contDelta (ss : List String) :
    ∀ (outs : List Pending) (p : Pending),
      (ss.map contDelta).foldl collectStep (outs ++ [p]) =
        outs ++ [⟨p.opener, p.extraArgs ++ String.join ss⟩] := by
  induction ss with
  | nil =>
    intro outs p
    show outs ++ [p] = outs ++ [⟨p.opener, p.extraArgs ++ String.join []⟩]
    rw [show String.join [] = "" from rfl, String.append_empty]
  | cons s rest ih =>
    intro outs p
    rw [List.map_cons, List.foldl_cons]
    have hstep : collectStep (outs ++ [p]) (contDelta s) =
        outs ++ [⟨p.opener, p.extraArgs ++ s⟩] := by
      rw [collectStep]
      have : chunkOrCall (contDelta s) = some { args := some s } := rfl
      rw [this]
      simp only [truthyO]
      rw [appendCont_append]
      rfl
    rw [hstep, ih]
    have hjoin : String.join (s :: rest) = s ++ String.join rest := by
      apply String.ext
      rw [String.join_eq, String.join_eq]
      simp [String.data_append]
    rw [hjoin, String.append_assoc]

/-- Claim C8.  Splitting a tool call's argument text into any ordered
sequence of fragments (the first riding on the opening delta, the rest
as continuations) and folding them through the collector yields the same
complete ToolCall — same id, same name, same concatenated arguments —
as a single delta carrying the unsplit text, in any collector state. -/
theorem c8_fragment_concat_assoc (pre : List Delta) (i n : Option String)
    (s0 : String) (ss : List String)
    (ht : (truthyO i || truthyO n) = true) :
    (collectDeltas (pre ++ startDelta i n s0 :: ss.map contDelta)).map Pending.toCall =
      (collectDeltas (pre ++ [startDelta i n (s0 ++ String.join ss)])).map Pending.toCall := by
  have hstart : ∀ s : String, collectStep (collectDeltas pre) (startDelta i n s) =
      collectDeltas pre ++ [⟨startDelta i n s, ""⟩] := by
    intro s
    rw [collectStep]
    have hcc : chunkOrCall (startDelta i n s) = some { id := i, name := n, args := some s } := rfl
    rw [hcc]
    dsimp only
    rw [if_pos ht]
  have hlhs : collectDeltas (pre ++ startDelta i n s0 :: ss.map contDelta) =
      collectDeltas pre ++ [⟨startDelta i n s0, "" ++ String.join ss⟩] := by
    have : pre ++ startDelta i n s0 :: ss.map contDelta =
        (pre ++ [startDelta i n s0]) ++ ss.map contDelta := by simp
    rw [this, collectDeltas, List.foldl_append, List.foldl_append]
    rw [show List.foldl collectStep (List.foldl collectStep [] pre) [startDelta i n s0] =
      collectStep (collectDeltas pre) (startDelta i n s0) from rfl]
    rw [hstart s0, foldl_contDelta]
  have hrhs : collectDeltas (pre ++ [startDelta i n (s0 ++ String.join ss)]) =
      collectDeltas pre ++ [⟨startDelta i n (s0 ++ String.join ss), ""⟩] := by
    rw [collectDeltas_append, hstart]
  rw [hlhs, hrhs, List.map_append, List.map_append]
  have : Pending.toCall ⟨startDelta i n s0, "" ++ String.join ss⟩ =
      Pending.toCall ⟨startDelta i n (s0 ++ String.join ss), ""⟩ := by
    simp [Pending.toCall, startDelta, chunkOrCall, String.empty_append,
      String.append_empty, String.append_assoc]
  rw [List.map_singleton, List.map_singleton, this]

/-- Witness for C8: splitting `"[1, 2]"` as `"[1"` + `", 2"` + `"]"`
produces the same complete call as the unsplit arguments. -/
theorem c8_witness :
    (collectDeltas ([] ++ startDelta (some "c1") (some "add") "[1" ::
        ["," ++ " 2", "]"].map contDelta)).map Pending.toCall =
      (collectDeltas ([] ++ [startDelta (some "c1") (some "add")
        ("[1" ++ String.join ["," ++ " 2", "]"])])).map Pending.toCall :=
  c8_fragment_concat_assoc [] (some "c1") (some "add") "[1" ["," ++ " 2", "]"]
    (by decide)

/-! ## C7: sentinel publication and the subscription -/

/-- An old-format-only delta naming `final_answer`: the handler's
detection (agent.py lines 144-147) sees it, but the collected output has
empty `tool_calls` and is filtered out of the loop's messages. -/
def exDeltaOldFA : Delta :=
  { old := [{ id := some "id1", fname := some "final_answer", fargs := some "x" }] }

/-- An ordinary streamed `add` tool-call delta. -/
def exDeltaAdd : Delta :=
  { chunks := [{ id := some "c9", name := some "add", args := some "1" }] }

/-- Claim C7 counterexample.  Invocation 1: an old-format
`final_answer` delta latches `final_answer_seen` although the collected
message is dropped (`if x.tool_calls` fails), so the loop continues; the
flag is never reset, so the end of turn 1 *and* the end of turn 2 both
publish `<<DONE>>` — two `<<DONE>>`s in one invocation, the second at a
turn none of whose deltas carried a `final_answer` tool call.
Invocation 2: no turn ever carries `final_answer`, and **zero**
`<<DONE>>`s are published (every end-of-turn publishes `<<STEP_END>>`),
so "exactly one <<DONE>> per invocation" fails in both directions. -/
theorem c7_counterexample :
    (invokeFull exImpl (fun _ => none) [[exDeltaOldFA], [exDeltaAdd]] [] 2).trace =
      [.token exDeltaOldFA, .done, .token exDeltaAdd, .done] ∧
    ((invokeFull exImpl (fun _ => none) [[exDeltaOldFA], [exDeltaAdd]] [] 2).trace.count
      QItem.done) = 2 ∧
    deltaFA exDeltaAdd = false ∧
    ((invokeFull exImpl (fun _ => none) [[exDeltaAdd]] [] 1).trace.count QItem.done) = 0 := by
  exact ⟨rfl, rfl, rfl, rfl⟩

theorem fullGo_turnsRun_ge (impl : String → ArgsD → Except String String)
    (parse : String → Option ArgsD)
    (turnsD : List (List Delta)) (scheds : List (List Nat)) :
    ∀ (fuel count : Nat) (flag : Bool) (scratch : List SMsg) (trace : List QItem),
      count ≤ (fullGo impl parse turnsD scheds fuel count flag scratch trace).turnsRun := by
  intro fuel
  induction fuel with
  | zero => intro count flag scratch trace; simp [fullGo]
  | succ n ih =>
    intro count flag scratch trace
    simp only [fullGo]
    split
    · simp
    · split
      · split <;> simp
      · rename_i entries ffa heq
        have := ih (count + 1) (flag || (turnsD.getD count []).any deltaFA) (scratch ++ entries)
          (trace ++ (turnsD.getD count []).map QItem.token ++
            [if (flag || (turnsD.getD count []).any deltaFA) then QItem.done else QItem.stepEnd])
        omega

/-- Does any delta of turns `base .. base + k` carry a final-answer
tool call? -/
def faFrom (turnsD : List (List Delta)) (base k : Nat) : Bool :=
  (List.range (k + 1)).any fun i => (turnsD.getD (base + i) []).any deltaFA

theorem faFrom_zero_eq (turnsD : List (List Delta)) (k : Nat) :
    faFrom turnsD 0 k = faUpTo turnsD k := by
  simp [faFrom, faUpTo]

theorem faFrom_succ (turnsD : List (List Delta)) (base k : Nat) :
    faFrom turnsD base (k + 1) =
      ((turnsD.getD base []).any deltaFA || faFrom turnsD (base + 1) k) := by
  unfold faFrom
  rw [List.range_succ_eq_map, List.any_cons, List.any_map, Nat.add_zero]
  congr 1
  have h : ((fun i => ((turnsD.getD (base + i) []).any deltaFA)) ∘ Nat.succ)
      = fun i => ((turnsD.getD (base + 1 + i) []).any deltaFA) := by
    funext i
    simp only [Function.comp_apply]
    rw [show base + Nat.succ i = base + 1 + i from by omega]
  rw [h]

/-- The queue trace published during one invocation, in closed form:
per executed turn, its deltas then `<<DONE>>` iff the latched
`final_answer_seen` flag is up — i.e. iff any delta of this or an
earlier turn (or the initial flag) carried `final_answer`. -/
theorem fullGo_trace (impl : String → ArgsD → Except String String)
    (parse : String → Option ArgsD)
    (turnsD : List (List Delta)) (scheds : List (List Nat)) :
    ∀ (fuel count : Nat) (flag : Bool) (scratch : List SMsg) (trace : List QItem),
      (fullGo impl parse turnsD scheds fuel count flag scratch trace).trace =
        trace ++ (List.range
            ((fullGo impl parse turnsD scheds fuel count flag scratch trace).turnsRun - count)).flatMap
          (fun k => (turnsD.getD (count + k) []).map QItem.token ++
            [if (flag || faFrom turnsD count k) then QItem.done else QItem.stepEnd]) := by
  intro fuel
  induction fuel with
  | zero => intro count flag scratch trace; simp [fullGo]
  | succ n ih =>
    intro count flag scratch trace
    have hfa0 : faFrom turnsD count 0 = (turnsD.getD count []).any deltaFA := by
      unfold faFrom
      simp [show List.range 1 = [0] from rfl]
    simp only [fullGo]
    cases hrt : runTurn impl (buildMsgs parse (collectDeltas (turnsD.getD count [])))
        (scheds.getD count []) with
    | error e =>
      dsimp only
      simp [Nat.add_sub_cancel_left, List.range_succ_eq_map, hfa0, List.append_assoc]
    | ok pr =>
      obtain ⟨entries, ffa⟩ := pr
      cases ffa with
      | some tc =>
        cases hans : tc.args.answer with
        | none =>
          dsimp only
          simp only [hans]
          simp [Nat.add_sub_cancel_left, List.range_succ_eq_map, hfa0, List.append_assoc]
        | some a =>
          dsimp only
          simp only [hans]
          simp [Nat.add_sub_cancel_left, List.range_succ_eq_map, hfa0, List.append_assoc]
      | none =>
        dsimp only
        rw [ih (count + 1) (flag || (turnsD.getD count []).any deltaFA) (scratch ++ entries)]
        have hge := fullGo_turnsRun_ge impl parse turnsD scheds n (count + 1)
          (flag || (turnsD.getD count []).any deltaFA) (scratch ++ entries)
          (trace ++ (turnsD.getD count []).map QItem.token ++
            [if (flag || (turnsD.getD count []).any deltaFA) then QItem.done else QItem.stepEnd])
        set tr := (fullGo impl parse turnsD scheds n (count + 1)
          (flag || (turnsD.getD count []).any deltaFA) (scratch ++ entries)
          (trace ++ (turnsD.getD count []).map QItem.token ++
            [if (flag || (turnsD.getD count []).any deltaFA) then QItem.done
             else QItem.stepEnd])).turnsRun with htr
        have h1 : tr - count = (tr - (count + 1)) + 1 := by omega
        have h2 : ∀ k : Nat, count + 1 + k = count + (k + 1) := fun k => by omega
        have h3 : ∀ k : Nat,
            ((flag || (turnsD.getD count []).any deltaFA) || faFrom turnsD (count + 1) k)
              = (flag || faFrom turnsD count (k + 1)) := by
          intro k
          rw [faFrom_succ, Bool.or_assoc]
        simp only [h1, List.range_succ_eq_map, List.flatMap_cons, List.flatMap_map,
          Nat.add_zero, List.append_assoc, Function.comp, Nat.succ_eq_add_one, h2, h3, hfa0]

/-- Claim C7, amended.  (1) The handler's `final_answer_seen` flag is
latched, never reset: within one invocation, each model end-of-turn
publishes `<<DONE>>` iff some delta of the current **or any earlier**
turn carried a `final_answer` tool call, and `<<STEP_END>>` otherwise —
so an invocation publishes one `<<DONE>>` exactly when the first
final-answer-carrying turn is the last executed turn, and none at all
under budget exhaustion.  (2) The subscription's iteration terminates
upon receiving `<<DONE>>` without delivering it: `<<DONE>>` never
appears among the delivered items, and everything before the first
`<<DONE>>` is delivered unchanged. -/
theorem c7_done_publication :
    (∀ (impl : String → ArgsD → Except String String) (parse : String → Option ArgsD)
        (turnsD : List (List Delta)) (scheds : List (List Nat)) (maxIter : Nat),
      (invokeFull impl parse turnsD scheds maxIter).trace =
        (List.range (invokeFull impl parse turnsD scheds maxIter).turnsRun).flatMap
          (fun k => (turnsD.getD k []).map QItem.token ++
            [if faUpTo turnsD k then QItem.done else QItem.stepEnd])) ∧
    (∀ q : List QItem, QItem.done ∉ aiterDeliver q) ∧
    (∀ (pre post : List QItem), QItem.done ∉ pre →
      aiterDeliver (pre ++ QItem.done :: post) = pre) := by
  refine ⟨?_, ?_, ?_⟩
  · intro impl parse turnsD scheds maxIter
    have := fullGo_trace impl parse turnsD scheds maxIter 0 false [] []
    rw [invokeFull] at *
    rw [this]
    have hz : ∀ k : Nat, (false || faFrom turnsD 0 k) = faUpTo turnsD k := by
      intro k
      rw [Bool.false_or, faFrom_zero_eq]
    simp only [List.nil_append, Nat.sub_zero, Nat.zero_add, hz]
  · intro q
    induction q with
    | nil => simp [aiterDeliver]
    | cons x rest ih =>
      cases x with
      | done => simp [aiterDeliver]
      | token d =>
        rw [show aiterDeliver (QItem.token d :: rest) = QItem.token d :: aiterDeliver rest
          from rfl]
        simp [ih]
      | stepEnd =>
        rw [show aiterDeliver (QItem.stepEnd :: rest) = QItem.stepEnd :: aiterDeliver rest
          from rfl]
        simp [ih]
  · intro pre
    induction pre with
    | nil => intro post _; rfl
    | cons x xs ih =>
      intro post hx
      rw [List.mem_cons] at hx
      push_neg at hx
      cases x with
      | done => exact absurd rfl hx.1
      | token d =>
        rw [List.cons_append,
          show aiterDeliver (QItem.token d :: (xs ++ QItem.done :: post))
            = QItem.token d :: aiterDeliver (xs ++ QItem.done :: post) from rfl,
          ih post hx.2]
      | stepEnd =>
        rw [List.cons_append,
          show aiterDeliver (QItem.stepEnd :: (xs ++ QItem.done :: post))
            = QItem.stepEnd :: aiterDeliver (xs ++ QItem.done :: post) from rfl,
          ih post hx.2]

/-- Witness for C7 (amended): the closed-form trace of a concrete
budget-exhausted invocation, and delivery stopping at a concrete
`<<DONE>>`. -/
theorem c7_witness :
    (invokeFull exImpl (fun _ => none) [[exDeltaAdd]] [] 1).trace =
      (List.range (invokeFull exImpl (fun _ => none) [[exDeltaAdd]] [] 1).turnsRun).flatMap
        (fun k => (([[exDeltaAdd]] : List (List Delta)).getD k []).map QItem.token ++
          [if faUpTo [[exDeltaAdd]] k then QItem.done else QItem.stepEnd]) ∧
    aiterDeliver ([QItem.token exDeltaAdd] ++ QItem.done :: [QItem.stepEnd]) =
      [QItem.token exDeltaAdd] :=
  ⟨c7_done_publication.1 exImpl (fun _ => none) [[exDeltaAdd]] [] 1,
   c7_done_publication.2.2 [QItem.token exDeltaAdd] [QItem.stepEnd] (by decide)⟩

/-! ## C9: sentinels and the visible output -/

/-- A streamed argument fragment whose text is literally the `<<DONE>>`
sentinel. -/
def exDeltaEvil : Delta := { chunks := [{ args := some "<<DONE>>" }] }

/-- An old-format tool call whose argument text is literally the
`<<DONE>>` sentinel. -/
def exDeltaOldEvil : Delta :=
  { old := [{ id := some "i", fname := some "f", fargs := some "<<DONE>>" }] }

/-- Claim C9 counterexample.  The consumers compare queue items against
the sentinel *strings*, but tool-argument text is passed through
verbatim: a delta whose argument fragment is literally `"<<DONE>>"` is
an object, not the sentinel string, so both consumers emit the literal
sentinel into the visible output. -/
theorem c9_counterexample :
    consumeA false false ((invokeFull exImpl (fun _ => none) [[exDeltaEvil]] [] 1).trace) =
      ["<<DONE>>", "</step>"] ∧
    "<<DONE>>" ∈ consumeA false false
      ((invokeFull exImpl (fun _ => none) [[exDeltaEvil]] [] 1).trace) ∧
    consumeB ((invokeFull exImpl (fun _ => none) [[exDeltaOldEvil]] [] 1).trace) =
      [stepHeader "f", "<<DONE>>", "</step>"] ∧
    "<<DONE>>" ∈ consumeB ((invokeFull exImpl (fun _ => none) [[exDeltaOldEvil]] [] 1).trace) := by
  refine ⟨rfl, ?_, rfl, ?_⟩ <;> decide

theorem stepHeader_length (n : String) : (stepHeader n).length = 29 + n.length := by
  rw [stepHeader, String.length_append, String.length_append]
  rw [show ("<step><step_name>" : String).length = 17 from by decide,
    show ("</step_name>" : String).length = 12 from by decide]
  omega

theorem stepHeader_ne_done (n : String) : stepHeader n ≠ "<<DONE>>" := by
  intro h
  have := congrArg String.length h
  rw [stepHeader_length, show ("<<DONE>>" : String).length = 8 from by decide] at this
  omega

theorem stepHeader_ne_stepEnd (n : String) : stepHeader n ≠ "<<STEP_END>>" := by
  intro h
  have := congrArg String.length h
  rw [stepHeader_length, show ("<<STEP_END>>" : String).length = 12 from by decide] at this
  omega

/-- Every fragment `stream_generator` emits is the step-closing tag, a
step header, or the tool-argument text extracted from some queued
token. -/
theorem consumeA_mem (s : String) :
    ∀ (q : List QItem) (started compl_ : Bool), s ∈ consumeA started compl_ q →
      s = "</step>" ∨ (∃ n, s = stepHeader n) ∨
        ∃ d, QItem.token d ∈ q ∧ (tokNA d).2 = some s := by
  intro q
  induction q with
  | nil => intro _ _ h; cases h
  | cons x rest ih =>
    intro started compl_ h
    cases x with
    | done => cases h
    | stepEnd =>
      cases compl_ with
      | true =>
        rcases ih started true h with h1 | h2 | ⟨d, hd, ha⟩
        · exact Or.inl h1
        · exact Or.inr (Or.inl h2)
        · exact Or.inr (Or.inr ⟨d, List.mem_cons_of_mem _ hd, ha⟩)
      | false =>
        rw [show consumeA started false (QItem.stepEnd :: rest) =
          "</step>" :: consumeA started (if started then true else false) rest from rfl] at h
        rcases List.mem_cons.mp h with h1 | h1
        · exact Or.inl h1
        · rcases ih started (if started then true else false) h1 with h2 | h3 | ⟨d, hd, ha⟩
          · exact Or.inl h2
          · exact Or.inr (Or.inl h3)
          · exact Or.inr (Or.inr ⟨d, List.mem_cons_of_mem _ hd, ha⟩)
    | token d0 =>
      cases compl_ with
      | true =>
        rcases ih started true h with h1 | h2 | ⟨d, hd, ha⟩
        · exact Or.inl h1
        · exact Or.inr (Or.inl h2)
        · exact Or.inr (Or.inr ⟨d, List.mem_cons_of_mem _ hd, ha⟩)
      | false =>
        rw [show consumeA started false (QItem.token d0 :: rest) =
          (if truthyO (tokNA d0).1 then [stepHeader ((tokNA d0).1.getD "")] else []) ++
          (if truthyO (tokNA d0).2 then [(tokNA d0).2.getD ""] else []) ++
          consumeA (started || (tokNA d0).1 == some "final_answer") false rest
          from rfl] at h
        rcases List.mem_append.mp h with h1 | h1
        · rcases List.mem_append.mp h1 with h2 | h2
          · rcases List.mem_ite_nil_right.mp h2 with ⟨_, h3⟩
            exact Or.inr (Or.inl ⟨(tokNA d0).1.getD "", List.mem_singleton.mp h3⟩)
          · obtain ⟨htr, h3⟩ := List.mem_ite_nil_right.mp h2
            have hs : s = (tokNA d0).2.getD "" := List.mem_singleton.mp h3
            have hsome : (tokNA d0).2 = some s := by
              cases hna : (tokNA d0).2 with
              | none =>
                rw [hna] at htr
                exact absurd htr (by decide)
              | some v =>
                rw [hna] at hs
                simp only [Option.getD_some] at hs
                rw [hs]
            exact Or.inr (Or.inr ⟨d0, List.mem_cons_self _ _, hsome⟩)
        · rcases ih (started || (tokNA d0).1 == some "final_answer") false h1 with
            h2 | h3 | ⟨d, hd, ha⟩
          · exact Or.inl h2
          · exact Or.inr (Or.inl h3)
          · exact Or.inr (Or.inr ⟨d, List.mem_cons_of_mem _ hd, ha⟩)

/-- Every fragment the api-handler's `stream_response` emits is the
step-closing tag, a step header, or an old-format argument text. -/
theorem consumeB_mem (s : String) :
    ∀ q : List QItem, s ∈ consumeB q →
      s = "</step>" ∨ (∃ n, s = stepHeader n) ∨
        ∃ d, QItem.token d ∈ q ∧ d.old.head?.bind OldCall.fargs = some s := by
  intro q
  induction q with
  | nil => intro h; cases h
  | cons x rest ih =>
    intro h
    cases x with
    | done => cases h
    | stepEnd =>
      rcases List.mem_cons.mp h with h1 | h1
      · exact Or.inl h1
      · rcases ih h1 with h2 | h3 | ⟨d, hd, ha⟩
        · exact Or.inl h2
        · exact Or.inr (Or.inl h3)
        · exact Or.inr (Or.inr ⟨d, List.mem_cons_of_mem _ hd, ha⟩)
    | token d0 =>
      cases ho : d0.old.head? with
      | none =>
        rw [show consumeB (QItem.token d0 :: rest) = consumeB rest from by
          rw [consumeB, ho]] at h
        rcases ih h with h2 | h3 | ⟨d, hd, ha⟩
        · exact Or.inl h2
        · exact Or.inr (Or.inl h3)
        · exact Or.inr (Or.inr ⟨d, List.mem_cons_of_mem _ hd, ha⟩)
      | some o =>
        rw [show consumeB (QItem.token d0 :: rest) =
          (if truthyO o.fname then [stepHeader (o.fname.getD "")] else []) ++
          (if truthyO o.fargs then [o.fargs.getD ""] else []) ++
          consumeB rest from by rw [consumeB, ho]] at h
        rcases List.mem_append.mp h with h1 | h1
        · rcases List.mem_append.mp h1 with h2 | h2
          · rcases List.mem_ite_nil_right.mp h2 with ⟨_, h3⟩
            exact Or.inr (Or.inl ⟨o.fname.getD "", List.mem_singleton.mp h3⟩)
          · obtain ⟨htr, h3⟩ := List.mem_ite_nil_right.mp h2
            have hs : s = o.fargs.getD "" := List.mem_singleton.mp h3
            have hfa : o.fargs = some s := by
              cases hna : o.fargs with
              | none =>
                rw [hna] at htr
                exact absurd htr (by decide)
              | some v =>
                rw [hna] at hs
                simp only [Option.getD_some] at hs
                rw [hs]
            refine Or.inr (Or.inr ⟨d0, List.mem_cons_self _ _, ?_⟩)
            rw [ho, Option.some_bind, hfa]
        · rcases ih h1 with h2 | h3 | ⟨d, hd, ha⟩
          · exact Or.inl h2
          · exact Or.inr (Or.inl h3)
          · exact Or.inr (Or.inr ⟨d, List.mem_cons_of_mem _ hd, ha⟩)

/-- Claim C9, amended.  A `<<DONE>>` queue item terminates both
consumers' output; every emitted fragment is `"</step>"`, a
`<step><step_name>...</step_name>` header, or tool-argument text passed
through verbatim; and consequently the literal sentinel strings never
appear in the visible output **provided** no tool-argument text is
itself a sentinel string (the counterexample shows argument text is the
one channel through which a sentinel can leak). -/
theorem c9_sentinels_invisible :
    (∀ (started compl_ : Bool) (r : List QItem),
      consumeA started compl_ (QItem.done :: r) = []) ∧
    (∀ r : List QItem, consumeB (QItem.done :: r) = []) ∧
    (∀ (started compl_ : Bool) (q : List QItem) (s : String),
      s ∈ consumeA started compl_ q →
      s = "</step>" ∨ (∃ n, s = stepHeader n) ∨
        ∃ d, QItem.token d ∈ q ∧ (tokNA d).2 = some s) ∧
    (∀ (q : List QItem) (s : String), s ∈ consumeB q →
      s = "</step>" ∨ (∃ n, s = stepHeader n) ∨
        ∃ d, QItem.token d ∈ q ∧ d.old.head?.bind OldCall.fargs = some s) ∧
    (∀ (started compl_ : Bool) (q : List QItem),
      (∀ d, QItem.token d ∈ q →
        (tokNA d).2 ≠ some "<<DONE>>" ∧ (tokNA d).2 ≠ some "<<STEP_END>>") →
      "<<DONE>>" ∉ consumeA started compl_ q ∧
      "<<STEP_END>>" ∉ consumeA started compl_ q) ∧
    (∀ q : List QItem,
      (∀ d, QItem.token d ∈ q →
        d.old.head?.bind OldCall.fargs ≠ some "<<DONE>>" ∧
        d.old.head?.bind OldCall.fargs ≠ some "<<STEP_END>>") →
      "<<DONE>>" ∉ consumeB q ∧ "<<STEP_END>>" ∉ consumeB q) := by
  refine ⟨fun _ _ _ => rfl, fun _ => rfl,
    fun started compl_ q s h => consumeA_mem s q started compl_ h,
    fun q s h => consumeB_mem s q h, ?_, ?_⟩
  · intro started compl_ q hargs
    constructor
    · intro hmem
      rcases consumeA_mem _ q started compl_ hmem with h1 | ⟨n, h2⟩ | ⟨d, hd, ha⟩
      · exact absurd h1.symm (by decide)
      · exact stepHeader_ne_done n h2.symm
      · exact (hargs d hd).1 ha
    · intro hmem
      rcases consumeA_mem _ q started compl_ hmem with h1 | ⟨n, h2⟩ | ⟨d, hd, ha⟩
      · exact absurd h1.symm (by decide)
      · exact stepHeader_ne_stepEnd n h2.symm
      · exact (hargs d hd).2 ha
  · intro q hargs
    constructor
    · intro hmem
      rcases consumeB_mem _ q hmem with h1 | ⟨n, h2⟩ | ⟨d, hd, ha⟩
      · exact absurd h1.symm (by decide)
      · exact stepHeader_ne_done n h2.symm
      · exact (hargs d hd).1 ha
    · intro hmem
      rcases consumeB_mem _ q hmem with h1 | ⟨n, h2⟩ | ⟨d, hd, ha⟩
      · exact absurd h1.symm (by decide)
      · exact stepHeader_ne_stepEnd n h2.symm
      · exact (hargs d hd).2 ha

/-- Witness for C9 (amended): on a concrete benign queue, neither
consumer's output contains a sentinel string. -/
theorem c9_witness :
    ("<<DONE>>" ∉ consumeA false false [QItem.token exDeltaAdd, QItem.stepEnd] ∧
      "<<STEP_END>>" ∉ consumeA false false [QItem.token exDeltaAdd, QItem.stepEnd]) ∧
    ("<<DONE>>" ∉ consumeB [QItem.token exDeltaOldFA, QItem.stepEnd] ∧
      "<<STEP_END>>" ∉ consumeB [QItem.token exDeltaOldFA, QItem.stepEnd]) :=
  ⟨c9_sentinels_invisible.2.2.2.2.1 false false [QItem.token exDeltaAdd, QItem.stepEnd]
      (fun d hd => by
        simp only [List.mem_cons, List.not_mem_nil, or_false] at hd
        rcases hd with h | h
        · injection h with h2
          subst h2
          exact ⟨by decide, by decide⟩
        · cases h),
    c9_sentinels_invisible.2.2.2.2.2 [QItem.token exDeltaOldFA, QItem.stepEnd]
      (fun d hd => by
        simp only [List.mem_cons, List.not_mem_nil, or_false] at hd
        rcases hd with h | h
        · injection h with h2
          subst h2
          exact ⟨by decide, by decide⟩
        · cases h)⟩

end WebSearchAgent
